import Mathlib

/-!
Verification of the `arrayify` transcoder (src/arrayify.cpp).

The program turns an input byte stream into a C character-array definition:
a declaration `const char <name>[] = ` followed by double-quoted,
line-wrapped, escaped string-literal lines.  We embed the core loop of
`parse` (src/arrayify.cpp lines 151-255) as a small-step state machine over
lists of byte values (`Nat`, byte codes 0..255), with one micro step per
iteration of the inner `while` loop.  Machine strings are lists of byte
codes; all arithmetic on cursor positions is on `Nat`, written in additive
form so that it agrees with the C `int` arithmetic for every non-negative
line length (the program only ever calls `parse` with a line length of at
least 21).
-/

namespace Arrayify

/-- Byte codes of a Lean string literal; used to transliterate the C string
constants of the source. -/
def strBytes (s : String) : List Nat := s.toList.map (fun ch => ch.toNat)

/-- Embeds `escapeRequired` (src/arrayify.cpp lines 38-84): the `switch`
returns true exactly for the twelve bytes that must be escaped. -/
def escapeRequired (c : Nat) : Bool :=
  if c = 0x07 then true        -- Bell
  else if c = 0x08 then true   -- Backspace
  else if c = 0x1b then true   -- Escape
  else if c = 0x0c then true   -- page break
  else if c = 0x0a then true   -- newline
  else if c = 0x0d then true   -- carriage return
  else if c = 0x09 then true   -- tab
  else if c = 0x0b then true   -- vertical tab
  else if c = 0x5c then true   -- backslash
  else if c = 0x27 then true   -- single quote
  else if c = 0x22 then true   -- double quote
  else if c = 0x3f then true   -- question mark
  else false

/-- Embeds `escapedChar` (src/arrayify.cpp lines 87-133): the mnemonic
character emitted after the backslash; any other byte is returned as is. -/
def escapedChar (c : Nat) : Nat :=
  if c = 0x07 then 0x61        -- 'a'
  else if c = 0x08 then 0x62   -- 'b'
  else if c = 0x1b then 0x65   -- 'e'
  else if c = 0x0c then 0x66   -- 'f'
  else if c = 0x0a then 0x6e   -- 'n'
  else if c = 0x0d then 0x72   -- 'r'
  else if c = 0x09 then 0x74   -- 't'
  else if c = 0x0b then 0x76   -- 'v'
  else if c = 0x5c then 0x5c   -- backslash
  else if c = 0x27 then 0x27   -- single quote
  else if c = 0x22 then 0x22   -- double quote
  else if c = 0x3f then 0x3f   -- question mark
  else c

/-- POSTFIX (src/arrayify.cpp line 32): closing quote and newline,
appended to the output buffer at every line flush. -/
def linePost : List Nat := [0x22, 0x0a]

/-- The prefix built by `sprintf(pPrefix, "const char %s[] = ", pName)`
(src/arrayify.cpp lines 30, 170).  Its length is PREFIX_LENGTH (16) plus
the length of the array name. -/
def declPre (name : List Nat) : List Nat :=
  strBytes "const char " ++ name ++ strBytes "[] = "

/-- The mutable state of `parse` (src/arrayify.cpp lines 151-163):
`buf` holds the output line buffer contents, so `buf.length` is the cursor
`pOut - pOutputBuffer`; `preFreed` records whether `pPrefix` has been freed
(set to NULL); `lines` records the payload of each `fwrite` performed on the
flush path, in order; `linesWritten` is the counter returned by `parse`. -/
structure ParseState where
  buf : List Nat
  addEscaped : Nat
  writeLine : Bool
  preFreed : Bool
  lines : List (List Nat)
  linesWritten : Nat
deriving DecidableEq

/-- Initial state of one `parse` call (src/arrayify.cpp lines 153-162). -/
def initState : ParseState :=
  { buf := [], addEscaped := 0, writeLine := false, preFreed := false,
    lines := [], linesWritten := 0 }

/-- The cascade of branches at the top of the inner loop
(src/arrayify.cpp lines 176-219), for current input byte `c`.  The returned
Bool is true when the branch advanced `pIn` past `c`.  Comparisons such as
`pOut - pOutputBuffer > lineLength - POSTFIX_LENGTH - 2` are written in the
equivalent additive form `L < buf.length + 4`, which agrees with the C int
arithmetic for every line length the program can pass. -/
def emitPhase (pre : List Nat) (L : Nat) (st : ParseState) (c : Nat) :
    ParseState × Bool :=
  if st.buf.length < pre.length then
    -- inside the prefix region: copy a prefix character, or a blank once
    -- the prefix buffer has been freed (lines 179-185)
    ({ st with buf := st.buf ++ [if st.preFreed then 0x20 else pre.getD st.buf.length 0] },
     false)
  else if st.buf.length = pre.length then
    -- at the prefix boundary: free the prefix, emit the opening quote
    -- (lines 186-192)
    ({ st with preFreed := true, buf := st.buf ++ [0x22] }, false)
  else if st.addEscaped = 2 then
    -- first half of a pending escape: the backslash (lines 193-197)
    ({ st with buf := st.buf ++ [0x5c], addEscaped := 1 }, false)
  else if st.addEscaped = 1 then
    -- second half: the mnemonic, consuming the input byte (lines 198-202)
    ({ st with buf := st.buf ++ [escapedChar c], addEscaped := 0 }, true)
  else if escapeRequired c then
    -- arm a two-step escape; force a flush if too close to the end of the
    -- line to fit both characters (lines 204-213)
    ({ st with addEscaped := 2,
               writeLine := if L < st.buf.length + 4 then true else st.writeLine },
     false)
  else
    -- ordinary character, copied verbatim (lines 214-218)
    ({ st with buf := st.buf ++ [c] }, true)

/-- The flush check at the bottom of the inner loop
(src/arrayify.cpp lines 220-230): when the cursor reached
`lineLength - POSTFIX_LENGTH` (additively: `L ≤ buf.length + 2`) or a flush
was forced, append the postfix, write the line, count it, and reset. -/
def flushPhase (L : Nat) (st : ParseState) : ParseState :=
  if L ≤ st.buf.length + 2 ∨ st.writeLine = true then
    { st with lines := st.lines ++ [st.buf ++ linePost],
              linesWritten := st.linesWritten + 1,
              buf := [], writeLine := false }
  else st

/-- One full iteration of the inner `while` loop
(src/arrayify.cpp lines 175-231). -/
def microStep (pre : List Nat) (L : Nat) (st : ParseState) (c : Nat) :
    ParseState × Bool :=
  let r := emitPhase pre L st c
  (flushPhase L r.1, r.2)

/-- Iterate the inner loop until the current input byte `c` is consumed
(i.e. until `pIn` advances).  `fuel` bounds the number of iterations; the
code can only spin forever when the line length is below the minimum that
`main` enforces, in which case `none` is returned. -/
def consumeByte (pre : List Nat) (L : Nat) : Nat → ParseState → Nat → Option ParseState
  | 0, _, _ => none
  | fuel + 1, st, c =>
    let r := microStep pre L st c
    if r.2 then some r.1 else consumeByte pre L fuel r.1 c

/-- Micro-iteration budget for one input byte: at most one full run of
prefix padding plus quote, one forced flush, a second padding run, and the
two escape characters. -/
def byteFuel (pre : List Nat) : Nat := 2 * pre.length + 8

/-- The inner loop over one read chunk (src/arrayify.cpp lines 173-231):
bytes are consumed one after the other, all loop state carrying over. -/
def runBytes (pre : List Nat) (L : Nat) : ParseState → List Nat → Option ParseState
  | st, [] => some st
  | st, c :: rest =>
    match consumeByte pre L (byteFuel pre) st c with
    | some st' => runBytes pre L st' rest
    | none => none

/-- The outer `fread` loop (src/arrayify.cpp line 172): chunks are
processed in order, the parse state carrying over between chunks. -/
def runChunks (pre : List Nat) (L : Nat) : ParseState → List (List Nat) → Option ParseState
  | st, [] => some st
  | st, chunk :: rest =>
    match runBytes pre L st chunk with
    | some st' => runChunks pre L st' rest
    | none => none

/-- Splits a list into chunks of `n + 1` elements (the structural fuel is
the list length); models how `fread` with a buffer of `n + 1` bytes groups
a regular file's bytes into reads. -/
def chunksGo (n : Nat) : Nat → List Nat → List (List Nat)
  | _, [] => []
  | 0, l => [l]
  | fuel + 1, l => l.take (n + 1) :: chunksGo n fuel (l.drop (n + 1))

/-- All read chunks of size `n + 1` of an input. -/
def chunksOf (n : Nat) (l : List Nat) : List (List Nat) := chunksGo n l.length l

/-- The trailing flush after the outer loop (src/arrayify.cpp lines
233-240): any characters left in the output buffer are written as a final
line with the postfix appended. -/
def finalFlush (st : ParseState) : ParseState :=
  if 0 < st.buf.length then
    { st with lines := st.lines ++ [st.buf ++ linePost],
              linesWritten := st.linesWritten + 1, buf := [] }
  else st

/-- The whole transcoding loop of `parse` (src/arrayify.cpp lines 171-240)
on the allocation-success path: the input is read in chunks of
`sizeof(inputBuffer) = 120` bytes, processed by the inner loop, and the
buffer remainder is flushed at the end. -/
def parse (name : List Nat) (L : Nat) (input : List Nat) : Option ParseState :=
  (runChunks (declPre name) L initState (chunksOf 119 input)).map finalFlush

/-- ENDFIX (src/arrayify.cpp line 34). -/
def endfix : List Nat := strBytes ";\n\n// End of file\n"

/-- The header comment written by `fprintf` at src/arrayify.cpp line 167. -/
def headerFor (inputName exeName : List Nat) : List Nat :=
  strBytes "/* This file was created from input file " ++ inputName ++
    strBytes " by " ++ exeName ++ strBytes " */\n\n"

/-- The bytes of the output file (src/arrayify.cpp lines 165-168 and
241-248): optional header, then the flushed lines, then the fix-up that
seeks back over the last two written bytes (the postfix) and overwrites
them with `";\n"` (bare) or ENDFIX.  When fewer than two bytes have been
written the `fseek` fails and the terminator is appended at the current
position instead. -/
def fileText (bare : Bool) (header : List Nat) (st : ParseState) : List Nat :=
  let dataText := (if bare then [] else header) ++ st.lines.flatten
  let body := if 2 ≤ dataText.length then dataText.dropLast.dropLast else dataText
  body ++ (if bare then strBytes ";\n" else endfix)

/-- What one input byte contributes to the literal text: an escape pair for
the twelve escaped bytes, the byte itself otherwise. -/
def emit (b : Nat) : List Nat :=
  if escapeRequired b then [0x5c, escapedChar b] else [b]

/-- The conceptual inverse of the escape table, for stating the round-trip
property: the byte denoted by the character following a backslash. -/
def unescapeChar (m : Nat) : Nat :=
  if m = 0x61 then 0x07
  else if m = 0x62 then 0x08
  else if m = 0x65 then 0x1b
  else if m = 0x66 then 0x0c
  else if m = 0x6e then 0x0a
  else if m = 0x72 then 0x0d
  else if m = 0x74 then 0x09
  else if m = 0x76 then 0x0b
  else m

/-- The conceptual re-parser of the emitted literal text: a backslash
followed by a mnemonic decodes to the escaped byte, every other character
stands for itself. -/
def unescape : List Nat → List Nat
  | [] => []
  | c :: rest =>
    if c = 0x5c then
      match rest with
      | [] => [c]
      | d :: rest2 => unescapeChar d :: unescape rest2
    else c :: unescape rest

/-- The quoted content of a flushed line: everything after the leading
prefix-or-padding and opening quote, with the closing quote and newline
stripped. -/
def lineContent (pre : List Nat) (l : List Nat) : List Nat :=
  ((l.drop (pre.length + 1)).dropLast).dropLast

/-- The leading padding of a physical line: the declaration prefix on the
very first line, spaces afterwards. -/
def padOf (pre : List Nat) (isFirst : Bool) : List Nat :=
  if isFirst then pre else List.replicate pre.length 0x20

/-- A well-formed flushed line: padding, opening quote, a whole number of
emitted tokens, closing quote and newline. -/
def lineOk (pad l : List Nat) : Prop :=
  ∃ bs : List Nat, l = pad ++ [0x22] ++ (bs.map emit).flatten ++ linePost

/-- Well-formedness of the flushed-line list: the first line carries the
declaration prefix, all later lines carry space padding. -/
def linesOk (pre : List Nat) : List (List Nat) → Prop
  | [] => True
  | l0 :: rest => lineOk pre l0 ∧ ∀ l ∈ rest, lineOk (List.replicate pre.length 0x20) l

/-- All literal content produced so far: the content of the flushed lines
followed by the content sitting in the unflushed buffer. -/
def allContent (pre : List Nat) (st : ParseState) : List Nat :=
  (st.lines.map (lineContent pre)).flatten ++ st.buf.drop (pre.length + 1)

/-- The loop invariant at input-byte boundaries. -/
def Inv (pre : List Nat) (L : Nat) (st : ParseState) : Prop :=
  st.writeLine = false ∧
  st.addEscaped = 0 ∧
  st.buf.length + 3 ≤ L ∧
  st.linesWritten = st.lines.length ∧
  (∀ l ∈ st.lines, l.length ≤ L) ∧
  linesOk pre st.lines ∧
  ((st.buf = [] ∧ st.preFreed = decide (st.lines ≠ []))
   ∨ (∃ bs : List Nat,
        st.buf = padOf pre (decide (st.lines = [])) ++ [0x22] ++ (bs.map emit).flatten ∧
        st.preFreed = true))

/-- The twelve byte values escapeRequired answers true for. -/
def escSet : List Nat := [0x07, 0x08, 0x1b, 0x0c, 0x0a, 0x0d, 0x09, 0x0b, 0x5c, 0x27, 0x22, 0x3f]

/-- Models the call-site behavior of `parse` including the allocation
guard (src/arrayify.cpp lines 159-164 and 252): when malloc fails for the
line buffer or the prefix buffer, the entire body of `parse` is skipped —
nothing is written to the output file and no diagnostic is printed — and
`linesWritten = 0` is returned.  The pair is (returned count, bytes written
to the output file). -/
def parseCall (allocOk : Bool) (bare : Bool) (header name : List Nat) (L : Nat)
    (input : List Nat) : Nat × List Nat :=
  if allocOk then
    match parse name L input with
    | some st => (st.linesWritten, fileText bare header st)
    | none => (0, [])
  else (0, [])

/-- Models `main`'s success/exit logic (src/arrayify.cpp lines 260-414):
`success` is set once an input file name is present (line 325) and is
cleared only by input-open, name-allocation, output-file-name-allocation,
or output-open failures; the value returned by `parse` at line 387 — and
hence the transcoder's internal allocation outcome — never affects it, and
`retValue` is 0 exactly when `success` survived. -/
def mainRetValue (inputFileGiven inputOpenOk nameAllocOk outNameAllocOk outOpenOk : Bool) :
    Int :=
  if inputFileGiven && inputOpenOk && nameAllocOk && outNameAllocOk && outOpenOk then 0
  else -1

/-- The width of `size_t` on the targeted 64-bit platforms: the C
comparison at src/arrayify.cpp line 353 converts `lineLength` to `size_t`
because `strlen` returns one. -/
def SIZE_T_MOD : Nat := 2 ^ 64

/-- The line-length validation of `main` (src/arrayify.cpp lines 353-356):
`lineLength` is replaced by `PREFIX_LENGTH + strlen(name) + 5` when it is
negative or when, converted to `size_t` as the C comparison does it, it is
below that minimum. -/
def effectiveLineLength (req : Int) (nameLen : Nat) : Int :=
  if req < 0 ∨ ((req % (SIZE_T_MOD : Int)).toNat < 16 + nameLen + 5) then
    ((16 : Int) + nameLen + 5)
  else req

example : strBytes "ab" = [97, 98] := by decide
example : (declPre [0x78]).length = 17 := by decide
example : escapeRequired 0x0a = true := by decide
example : emit 65 = [65] := by decide
example : emit 10 = [0x5c, 0x6e] := by decide
example : unescape [65, 0x5c, 0x6e, 66] = [65, 10, 66] := by decide

example :
    (parse [0x78] 80 [65, 10, 66]).map (fun st => (st.linesWritten, st.lines)) =
      some (1, [declPre [0x78] ++ [0x22, 65, 0x5c, 0x6e, 66, 0x22, 0x0a]]) := by
  decide

lemma escapeRequired_mem (b : Nat) (h : escapeRequired b = true) : b ∈ escSet := by
  simp only [escapeRequired] at h
  by_cases h1 : b = 0x07
  · subst h1; decide
  rw [if_neg h1] at h
  by_cases h2 : b = 0x08
  · subst h2; decide
  rw [if_neg h2] at h
  by_cases h3 : b = 0x1b
  · subst h3; decide
  rw [if_neg h3] at h
  by_cases h4 : b = 0x0c
  · subst h4; decide
  rw [if_neg h4] at h
  by_cases h5 : b = 0x0a
  · subst h5; decide
  rw [if_neg h5] at h
  by_cases h6 : b = 0x0d
  · subst h6; decide
  rw [if_neg h6] at h
  by_cases h7 : b = 0x09
  · subst h7; decide
  rw [if_neg h7] at h
  by_cases h8 : b = 0x0b
  · subst h8; decide
  rw [if_neg h8] at h
  by_cases h9 : b = 0x5c
  · subst h9; decide
  rw [if_neg h9] at h
  by_cases h10 : b = 0x27
  · subst h10; decide
  rw [if_neg h10] at h
  by_cases h11 : b = 0x22
  · subst h11; decide
  rw [if_neg h11] at h
  by_cases h12 : b = 0x3f
  · subst h12; decide
  rw [if_neg h12] at h
  exact Bool.noConfusion h

lemma escapeRequired_iff (b : Nat) : escapeRequired b = true ↔ b ∈ escSet := by
  refine ⟨escapeRequired_mem b, fun hm => ?pos⟩
  simp only [escSet] at hm
  fin_cases hm <;> decide

lemma unescapeChar_escapedChar (b : Nat) (h : escapeRequired b = true) :
    unescapeChar (escapedChar b) = b := by
  have hm := escapeRequired_mem b h
  simp only [escSet] at hm
  fin_cases hm <;> decide

lemma not_escape_ne_backslash (b : Nat) (h : escapeRequired b = false) : b ≠ 0x5c := by
  intro he
  rw [he] at h
  exact absurd h (by decide)

lemma unescape_emit_cons (b : Nat) (t : List Nat) :
    unescape (emit b ++ t) = b :: unescape t := by
  cases h : escapeRequired b with
  | true =>
    have he : emit b = [0x5c, escapedChar b] := by simp [emit, h]
    rw [he, List.cons_append, List.cons_append, List.nil_append]
    simp [unescape, unescapeChar_escapedChar b h]
  | false =>
    have he : emit b = [b] := by simp [emit, h]
    have hne := not_escape_ne_backslash b h
    rw [he, List.cons_append, List.nil_append]
    cases t with
    | nil => simp [unescape, hne]
    | cons d rest2 => simp [unescape, hne]

/-- Decoding a whole number of emitted tokens recovers the encoded bytes. -/
theorem unescape_flatten_emit (bs : List Nat) :
    unescape ((bs.map emit).flatten) = bs := by
  induction bs with
  | nil => rfl
  | cons b rest ih =>
    simp only [List.map_cons, List.flatten_cons]
    rw [unescape_emit_cons, ih]

lemma take_getD_succ (l : List Nat) (n : Nat) (h : n < l.length) :
    l.take n ++ [l.getD n 0] = l.take (n + 1) := by
  rw [List.take_succ]
  congr 1
  simp [List.getD, List.getElem?_eq_getElem h]

lemma flushPhase_no (L : Nat) (st : ParseState)
    (h1 : st.buf.length + 2 < L) (h2 : st.writeLine = false) :
    flushPhase L st = st := by
  unfold flushPhase
  rw [if_neg]
  rintro (h | h)
  · omega
  · rw [h2] at h
    exact absurd h (by simp)

lemma flushPhase_yes (L : Nat) (st : ParseState)
    (h : L ≤ st.buf.length + 2 ∨ st.writeLine = true) :
    flushPhase L st =
      { st with lines := st.lines ++ [st.buf ++ linePost],
                linesWritten := st.linesWritten + 1,
                buf := [], writeLine := false } := by
  unfold flushPhase
  rw [if_pos h]

lemma microStep_pad (pre : List Nat) (L : Nat) (st : ParseState) (c : Nat)
    (h : st.buf.length < pre.length) :
    microStep pre L st c =
      (flushPhase L { st with
          buf := st.buf ++ [if st.preFreed then 0x20 else pre.getD st.buf.length 0] },
       false) := by
  simp only [microStep, emitPhase, if_pos h]

lemma microStep_quote (pre : List Nat) (L : Nat) (st : ParseState) (c : Nat)
    (h : st.buf.length = pre.length) :
    microStep pre L st c =
      (flushPhase L { st with preFreed := true, buf := st.buf ++ [0x22] }, false) := by
  simp only [microStep, emitPhase]
  rw [if_neg (by omega), if_pos h]

lemma microStep_backslash (pre : List Nat) (L : Nat) (st : ParseState) (c : Nat)
    (h1 : pre.length < st.buf.length) (h2 : st.addEscaped = 2) :
    microStep pre L st c =
      (flushPhase L { st with buf := st.buf ++ [0x5c], addEscaped := 1 }, false) := by
  simp only [microStep, emitPhase]
  rw [if_neg (by omega), if_neg (by omega), if_pos h2]

lemma microStep_mnemonic (pre : List Nat) (L : Nat) (st : ParseState) (c : Nat)
    (h1 : pre.length < st.buf.length) (h2 : st.addEscaped = 1) :
    microStep pre L st c =
      (flushPhase L { st with buf := st.buf ++ [escapedChar c], addEscaped := 0 }, true) := by
  simp only [microStep, emitPhase]
  rw [if_neg (by omega), if_neg (by omega), if_neg (by omega), if_pos h2]

lemma microStep_arm (pre : List Nat) (L : Nat) (st : ParseState) (c : Nat)
    (h1 : pre.length < st.buf.length) (h2 : st.addEscaped = 0)
    (h3 : escapeRequired c = true) :
    microStep pre L st c =
      (flushPhase L
        { st with addEscaped := 2,
                  writeLine := (if L < st.buf.length + 4 then true else st.writeLine) },
       false) := by
  simp only [microStep, emitPhase]
  rw [if_neg (by omega), if_neg (by omega), if_neg (by omega), if_neg (by omega), if_pos h3]

lemma microStep_verbatim (pre : List Nat) (L : Nat) (st : ParseState) (c : Nat)
    (h1 : pre.length < st.buf.length) (h2 : st.addEscaped = 0)
    (h3 : escapeRequired c = false) :
    microStep pre L st c =
      (flushPhase L { st with buf := st.buf ++ [c] }, true) := by
  simp only [microStep, emitPhase]
  rw [if_neg (by omega), if_neg (by omega), if_neg (by omega), if_neg (by omega),
    if_neg (by simp [h3])]

lemma consumeByte_consumed (pre : List Nat) (L : Nat) (st st' : ParseState) (c fuel : Nat)
    (h : microStep pre L st c = (st', true)) :
    consumeByte pre L (fuel + 1) st c = some st' := by
  simp [consumeByte, h]

lemma consumeByte_skip (pre : List Nat) (L : Nat) (st st' : ParseState) (c fuel : Nat)
    (h : microStep pre L st c = (st', false)) :
    consumeByte pre L (fuel + 1) st c = consumeByte pre L fuel st' c := by
  simp [consumeByte, h]

/-- Running the padding branch until the opening quote has been emitted:
from a buffer holding the first `pre.length - k` padding characters, `k + 1`
micro steps fill the rest of the padding and append the quote, without any
flush firing. -/
lemma pad_run_aux (pre : List Nat) (L : Nat) (hL : pre.length + 5 ≤ L) :
    ∀ (k : Nat) (st : ParseState) (c : Nat) (fuel : Nat),
      st.writeLine = false →
      st.buf = (if st.preFreed then List.replicate (pre.length - k) 0x20
                else pre.take (pre.length - k)) →
      k ≤ pre.length →
      consumeByte pre L (fuel + (k + 1)) st c =
        consumeByte pre L fuel
          { st with preFreed := true,
                    buf := (if st.preFreed then List.replicate pre.length 0x20 else pre)
                           ++ [0x22] } c := by
  intro k
  induction k with
  | zero =>
    intro st c fuel hw hbuf _
    have hlen : st.buf.length = pre.length := by
      rw [hbuf]; split <;> simp
    have hflush : flushPhase L { st with preFreed := true, buf := st.buf ++ [0x22] } =
        { st with preFreed := true, buf := st.buf ++ [0x22] } := by
      apply flushPhase_no
      · simp only [List.length_append, List.length_cons, List.length_nil]
        omega
      · exact hw
    have hmicro : microStep pre L st c =
        ({ st with preFreed := true, buf := st.buf ++ [0x22] }, false) := by
      rw [microStep_quote pre L st c hlen, hflush]
    show consumeByte pre L (fuel + 1) st c = _
    rw [consumeByte_skip pre L st _ c fuel hmicro]
    have hb : st.buf ++ [0x22] =
        (if st.preFreed then List.replicate pre.length 0x20 else pre) ++ [0x22] := by
      rw [hbuf]
      split <;> simp
    rw [hb]
  | succ k ih =>
    intro st c fuel hw hbuf hk
    have hlen : st.buf.length = pre.length - (k + 1) := by
      rw [hbuf]; split <;> simp
    have h1 : st.buf.length < pre.length := by omega
    have hflush : flushPhase L { st with
        buf := st.buf ++ [if st.preFreed then 0x20 else pre.getD st.buf.length 0] } =
        { st with buf := st.buf ++ [if st.preFreed then 0x20 else pre.getD st.buf.length 0] } := by
      apply flushPhase_no
      · simp only [List.length_append, List.length_cons, List.length_nil]
        omega
      · exact hw
    have hmicro : microStep pre L st c =
        ({ st with buf := st.buf ++ [if st.preFreed then 0x20 else pre.getD st.buf.length 0] },
         false) := by
      rw [microStep_pad pre L st c h1, hflush]
    show consumeByte pre L ((fuel + (k + 1)) + 1) st c = _
    rw [consumeByte_skip pre L st _ c (fuel + (k + 1)) hmicro]
    have hbuf1 : ({ st with
        buf := st.buf ++ [if st.preFreed then 0x20 else pre.getD st.buf.length 0] } :
          ParseState).buf =
        (if st.preFreed then List.replicate (pre.length - k) 0x20
         else pre.take (pre.length - k)) := by
      show st.buf ++ [if st.preFreed then 0x20 else pre.getD st.buf.length 0] = _
      rw [hlen, hbuf]
      by_cases hpf : st.preFreed = true
      · rw [if_pos hpf, if_pos hpf, if_pos hpf,
          ← List.replicate_succ' (pre.length - (k + 1)) 0x20]
        congr 1
        omega
      · rw [if_neg hpf, if_neg hpf, if_neg hpf, take_getD_succ pre _ (by omega)]
        congr 1
        omega
    rw [ih _ c fuel (by simp [hw]) hbuf1 (by omega)]

lemma pad_run (pre : List Nat) (L : Nat) (hL : pre.length + 5 ≤ L)
    (st : ParseState) (c fuel : Nat)
    (hw : st.writeLine = false) (hbuf : st.buf = [])
    (hpf : st.preFreed = decide (st.lines ≠ [])) :
    consumeByte pre L (fuel + (pre.length + 1)) st c =
      consumeByte pre L fuel
        { st with preFreed := true,
                  buf := padOf pre (decide (st.lines = [])) ++ [0x22] } c := by
  have haux := pad_run_aux pre L hL pre.length st c fuel hw
    (by rw [hbuf]; split <;> simp) le_rfl
  rw [haux]
  by_cases hl : st.lines = []
  · have hp : st.preFreed = false := by simp [hpf, hl]
    simp [hp, padOf, hl]
  · have hp : st.preFreed = true := by simp [hpf, hl]
    simp [hp, padOf, hl]

lemma padOf_length (pre : List Nat) (b : Bool) : (padOf pre b).length = pre.length := by
  unfold padOf
  split <;> simp

lemma linesOk_append (pre : List Nat) (lines : List (List Nat)) (l : List Nat)
    (h : linesOk pre lines) (hnew : lineOk (padOf pre (decide (lines = []))) l) :
    linesOk pre (lines ++ [l]) := by
  cases lines with
  | nil =>
    refine ⟨?h1, ?h2⟩
    · simpa [padOf] using hnew
    · simp
  | cons l0 rest =>
    obtain ⟨h0, hrest⟩ := h
    refine ⟨h0, ?tail⟩
    intro x hx
    rcases List.mem_append.mp hx with hx | hx
    · exact hrest x hx
    · rcases List.mem_singleton.mp hx with rfl
      simpa [padOf] using hnew

lemma lineContent_mk (pre pad cont : List Nat) (hpad : pad.length = pre.length) :
    lineContent pre (pad ++ [0x22] ++ cont ++ linePost) = cont := by
  unfold lineContent linePost
  have h1 : pad ++ [0x22] ++ cont ++ [0x22, 0x0a] =
      (pad ++ [0x22]) ++ (cont ++ [0x22, 0x0a]) := by simp
  rw [h1, show pre.length + 1 = (pad ++ [0x22]).length by simp [hpad], List.drop_left]
  rw [show cont ++ [0x22, 0x0a] = (cont ++ [0x22]) ++ [0x0a] by simp,
    List.dropLast_concat, List.dropLast_concat]

lemma drop_pad_quote (pre pad cont : List Nat) (hpad : pad.length = pre.length) :
    (pad ++ [0x22] ++ cont).drop (pre.length + 1) = cont := by
  have h1 : pad ++ [0x22] ++ cont = (pad ++ [0x22]) ++ cont := by simp
  rw [h1, show pre.length + 1 = (pad ++ [0x22]).length by simp [hpad], List.drop_left]

/-- Closing step of each leaf case: a state whose buffer holds a whole
number of tokens satisfies the invariant after the flush check runs, and
its content is unchanged by the flush. -/
lemma flush_inv (pre : List Nat) (L : Nat) (hL : pre.length + 5 ≤ L)
    (st : ParseState) (bs : List Nat)
    (hbuf : st.buf = padOf pre (decide (st.lines = [])) ++ [0x22] ++ (bs.map emit).flatten)
    (ha : st.addEscaped = 0) (hw : st.writeLine = false)
    (hcnt : st.linesWritten = st.lines.length)
    (hlens : ∀ l ∈ st.lines, l.length ≤ L)
    (hlok : linesOk pre st.lines) (hfree : st.preFreed = true)
    (hup : st.buf.length + 2 ≤ L) :
    Inv pre L (flushPhase L st) ∧ allContent pre (flushPhase L st) = allContent pre st := by
  have hdrop : st.buf.drop (pre.length + 1) = (bs.map emit).flatten := by
    rw [hbuf]
    exact drop_pad_quote pre _ _ (padOf_length pre _)
  by_cases hfl : L ≤ st.buf.length + 2
  · rw [flushPhase_yes L st (Or.inl hfl)]
    refine ⟨⟨rfl, ha, by simpa using by omega, by simpa using hcnt, ?lens, ?lok, ?shape⟩,
      ?content⟩
    case lens =>
      intro l hl
      simp only at hl
      rcases List.mem_append.mp hl with hl | hl
      · exact hlens l hl
      · rcases List.mem_singleton.mp hl with rfl
        simp only [List.length_append, linePost, List.length_cons, List.length_nil]
        omega
    case lok =>
      exact linesOk_append pre st.lines _ hlok ⟨bs, by rw [hbuf]⟩
    case shape =>
      left
      refine ⟨rfl, ?pf⟩
      simp [hfree]
    case content =>
      unfold allContent
      simp only [List.map_append, List.flatten_append, List.map_cons, List.map_nil,
        List.flatten_cons, List.flatten_nil, List.drop_nil, List.append_nil]
      rw [hdrop]
      have hlc : lineContent pre (st.buf ++ linePost) = (bs.map emit).flatten := by
        rw [hbuf, show padOf pre (decide (st.lines = [])) ++ [0x22] ++ (bs.map emit).flatten
            ++ linePost = padOf pre (decide (st.lines = [])) ++ [0x22] ++
            ((bs.map emit).flatten ++ linePost) from by simp]
        rw [show padOf pre (decide (st.lines = [])) ++ [0x22] ++
            ((bs.map emit).flatten ++ linePost) = padOf pre (decide (st.lines = [])) ++ [0x22]
            ++ (bs.map emit).flatten ++ linePost from by simp]
        exact lineContent_mk pre _ _ (padOf_length pre _)
      rw [hlc]
  · have hlt : st.buf.length + 2 < L := by omega
    rw [flushPhase_no L st hlt hw]
    exact ⟨⟨hw, ha, by omega, hcnt, hlens, hlok, Or.inr ⟨bs, hbuf, hfree⟩⟩, rfl⟩

lemma allContent_eq (pre : List Nat) (st : ParseState) (cont : List Nat)
    (hbuf : st.buf = padOf pre (decide (st.lines = [])) ++ [0x22] ++ cont) :
    allContent pre st = (st.lines.map (lineContent pre)).flatten ++ cont := by
  unfold allContent
  rw [hbuf, drop_pad_quote pre _ _ (padOf_length pre _)]
lemma microStep_arm_noflush (pre : List Nat) (L : Nat) (st : ParseState) (c : Nat)
    (h1 : pre.length < st.buf.length) (h2 : st.addEscaped = 0)
    (h3 : escapeRequired c = true) (h4 : ¬ L < st.buf.length + 4)
    (h5 : st.writeLine = false) (h6 : st.buf.length + 2 < L) :
    microStep pre L st c = ({ st with addEscaped := 2 }, false) := by
  rw [microStep_arm pre L st c h1 h2 h3, if_neg h4,
    flushPhase_no L { st with addEscaped := 2, writeLine := st.writeLine } h6 h5]

lemma microStep_arm_flush (pre : List Nat) (L : Nat) (st : ParseState) (c : Nat)
    (h1 : pre.length < st.buf.length) (h2 : st.addEscaped = 0)
    (h3 : escapeRequired c = true) (h4 : L < st.buf.length + 4) :
    microStep pre L st c =
      ({ st with
         buf := [], addEscaped := 2, writeLine := false,
         lines := st.lines ++ [st.buf ++ linePost],
         linesWritten := st.linesWritten + 1 }, false) := by
  rw [microStep_arm pre L st c h1 h2 h3, if_pos h4,
    flushPhase_yes L { st with addEscaped := 2, writeLine := true } (Or.inr rfl)]

lemma microStep_backslash_noflush (pre : List Nat) (L : Nat) (st : ParseState) (c : Nat)
    (h1 : pre.length < st.buf.length) (h2 : st.addEscaped = 2)
    (h3 : st.buf.length + 3 < L) (h4 : st.writeLine = false) :
    microStep pre L st c = ({ st with buf := st.buf ++ [0x5c], addEscaped := 1 }, false) := by
  rw [microStep_backslash pre L st c h1 h2,
    flushPhase_no L { st with buf := st.buf ++ [0x5c], addEscaped := 1 }
      (by simp only [List.length_append, List.length_cons, List.length_nil]; omega) h4]

/-- Consuming one input byte from a content-region state: the byte is
consumed within the fuel budget, the invariant holds again at the next
byte boundary, and exactly the byte's emitted token is appended to the
produced content. -/
lemma consume_content (pre : List Nat) (L : Nat) (hL : pre.length + 5 ≤ L)
    (st : ParseState) (c : Nat) (bs : List Nat) (fuel : Nat)
    (hfuel : pre.length + 5 ≤ fuel)
    (hbuf : st.buf = padOf pre (decide (st.lines = [])) ++ [0x22] ++ (bs.map emit).flatten)
    (ha : st.addEscaped = 0) (hw : st.writeLine = false)
    (hlen3 : st.buf.length + 3 ≤ L)
    (hcnt : st.linesWritten = st.lines.length)
    (hlens : ∀ l ∈ st.lines, l.length ≤ L)
    (hlok : linesOk pre st.lines) (hfree : st.preFreed = true) :
    ∃ st', consumeByte pre L fuel st c = some st' ∧ Inv pre L st' ∧
      allContent pre st' = allContent pre st ++ emit c := by
  have hblen : st.buf.length = pre.length + 1 + ((bs.map emit).flatten).length := by
    rw [hbuf]
    simp only [List.length_append, padOf_length, List.length_cons, List.length_nil]
  have h1 : pre.length < st.buf.length := by omega
  have hac := allContent_eq pre st _ hbuf
  have hlc : lineContent pre (st.buf ++ linePost) = (bs.map emit).flatten := by
    rw [hbuf]
    exact lineContent_mk pre _ _ (padOf_length pre _)
  cases hc : escapeRequired c with
  | false =>
    -- verbatim copy, then the ordinary flush check
    obtain ⟨f, rfl⟩ : ∃ f, fuel = f + 1 := ⟨fuel - 1, by omega⟩
    have hms : microStep pre L st c =
        (flushPhase L { st with buf := st.buf ++ [c] }, true) :=
      microStep_verbatim pre L st c h1 ha hc
    have he : consumeByte pre L (f + 1) st c =
        some (flushPhase L { st with buf := st.buf ++ [c] }) :=
      consumeByte_consumed pre L st _ c f hms
    refine ⟨_, he, ?_⟩
    have hbuf1 : ({ st with buf := st.buf ++ [c] } : ParseState).buf =
        padOf pre (decide (st.lines = [])) ++ [0x22] ++ ((bs ++ [c]).map emit).flatten := by
      simp [hbuf, emit, hc]
    have hres := flush_inv pre L hL { st with buf := st.buf ++ [c] } (bs ++ [c])
      hbuf1 ha hw hcnt hlens hlok hfree
      (by simp only [List.length_append, List.length_cons, List.length_nil]; omega)
    refine ⟨hres.1, ?_⟩
    rw [hres.2, hac, allContent_eq pre _ _ hbuf1]
    simp [emit, hc]
  | true =>
    by_cases hlate : L < st.buf.length + 4
    · -- the escape does not fit on this line: flush now, pad the next
      -- line, then emit backslash and mnemonic there
      obtain ⟨f, rfl⟩ : ∃ f, fuel = (((f + 1) + 1) + (pre.length + 1)) + 1 :=
        ⟨fuel - (pre.length + 4), by omega⟩
      have hms1 : microStep pre L st c =
          ({ st with
             buf := [], addEscaped := 2, writeLine := false,
             lines := st.lines ++ [st.buf ++ linePost],
             linesWritten := st.linesWritten + 1 }, false) :=
        microStep_arm_flush pre L st c h1 ha hc hlate
      have e1 := consumeByte_skip pre L st _ c (((f + 1) + 1) + (pre.length + 1)) hms1
      have e2 : consumeByte pre L (((f + 1) + 1) + (pre.length + 1))
          ({ st with
             buf := [], addEscaped := 2, writeLine := false,
             lines := st.lines ++ [st.buf ++ linePost],
             linesWritten := st.linesWritten + 1 } : ParseState) c =
          consumeByte pre L ((f + 1) + 1)
          ({ st with
             addEscaped := 2, writeLine := false, preFreed := true,
             buf := padOf pre (decide ((st.lines ++ [st.buf ++ linePost]) = [])) ++ [0x22],
             lines := st.lines ++ [st.buf ++ linePost],
             linesWritten := st.linesWritten + 1 } : ParseState) c :=
        pad_run pre L hL _ c ((f + 1) + 1) rfl rfl (by simp [hfree])
      have hms3 : microStep pre L
          ({ st with
             addEscaped := 2, writeLine := false, preFreed := true,
             buf := padOf pre (decide ((st.lines ++ [st.buf ++ linePost]) = [])) ++ [0x22],
             lines := st.lines ++ [st.buf ++ linePost],
             linesWritten := st.linesWritten + 1 } : ParseState) c =
          (({ st with
             addEscaped := 1, writeLine := false, preFreed := true,
             buf := (padOf pre (decide ((st.lines ++ [st.buf ++ linePost]) = []))
               ++ [0x22]) ++ [0x5c],
             lines := st.lines ++ [st.buf ++ linePost],
             linesWritten := st.linesWritten + 1 } : ParseState), false) :=
        microStep_backslash_noflush pre L _ c
          (by simp only [List.length_append, padOf_length, List.length_cons,
            List.length_nil]; omega)
          rfl
          (by simp only [List.length_append, padOf_length, List.length_cons,
            List.length_nil]; omega)
          rfl
      have e3 := consumeByte_skip pre L _ _ c (f + 1) hms3
      have hms4 : microStep pre L
          ({ st with
             addEscaped := 1, writeLine := false, preFreed := true,
             buf := (padOf pre (decide ((st.lines ++ [st.buf ++ linePost]) = []))
               ++ [0x22]) ++ [0x5c],
             lines := st.lines ++ [st.buf ++ linePost],
             linesWritten := st.linesWritten + 1 } : ParseState) c =
          (flushPhase L
            ({ st with
               addEscaped := 0, writeLine := false, preFreed := true,
               buf := ((padOf pre (decide ((st.lines ++ [st.buf ++ linePost]) = []))
                 ++ [0x22]) ++ [0x5c]) ++ [escapedChar c],
               lines := st.lines ++ [st.buf ++ linePost],
               linesWritten := st.linesWritten + 1 } : ParseState), true) :=
        microStep_mnemonic pre L _ c
          (by simp only [List.length_append, padOf_length, List.length_cons,
            List.length_nil]; omega)
          rfl
      have e4 := consumeByte_consumed pre L _ _ c f hms4
      have he := (e1.trans e2).trans (e3.trans e4)
      refine ⟨_, he, ?_⟩
      have hbuf5 : (({ st with
              addEscaped := 0, writeLine := false, preFreed := true,
              buf := ((padOf pre (decide ((st.lines ++ [st.buf ++ linePost]) = []))
                ++ [0x22]) ++ [0x5c]) ++ [escapedChar c],
              lines := st.lines ++ [st.buf ++ linePost],
              linesWritten := st.linesWritten + 1 } : ParseState)).buf =
          padOf pre (decide ((st.lines ++ [st.buf ++ linePost]) = [])) ++ [0x22] ++
            (([c]).map emit).flatten := by
        simp [emit, hc]
      have hres := flush_inv pre L hL _ [c] hbuf5 rfl rfl
        (by simp [hcnt])
        (by intro l hl
            rcases List.mem_append.mp hl with hl | hl
            · exact hlens l hl
            · rcases List.mem_singleton.mp hl with rfl
              simp only [List.length_append, linePost, List.length_cons, List.length_nil]
              omega)
        (linesOk_append pre st.lines _ hlok ⟨bs, by rw [hbuf]⟩)
        rfl
        (by simp only [List.length_append, padOf_length, List.length_cons,
          List.length_nil]; omega)
      refine ⟨hres.1, ?_⟩
      rw [hres.2, allContent_eq pre _ _ hbuf5, hac]
      show ((st.lines ++ [st.buf ++ linePost]).map (lineContent pre)).flatten ++ _ = _
      rw [List.map_append, List.flatten_append]
      simp only [List.map_cons, List.map_nil, List.flatten_cons, List.flatten_nil,
        List.append_nil]
      rw [hlc]
    · -- the escape pair still fits: arm, emit backslash, emit mnemonic
      obtain ⟨f, rfl⟩ : ∃ f, fuel = ((f + 1) + 1) + 1 := ⟨fuel - 3, by omega⟩
      have hx3 : st.buf.length + 3 < L := by omega
      have hms1 : microStep pre L st c = ({ st with addEscaped := 2 }, false) :=
        microStep_arm_noflush pre L st c h1 ha hc hlate hw (by omega)
      have e1 := consumeByte_skip pre L st _ c ((f + 1) + 1) hms1
      have hms2 : microStep pre L ({ st with addEscaped := 2 } : ParseState) c =
          ({ st with buf := st.buf ++ [0x5c], addEscaped := 1 }, false) :=
        microStep_backslash_noflush pre L _ c h1 rfl hx3 hw
      have e2 := consumeByte_skip pre L _ _ c (f + 1) hms2
      have hms3 : microStep pre L
          ({ st with buf := st.buf ++ [0x5c], addEscaped := 1 } : ParseState) c =
          (flushPhase L ({ st with
              buf := (st.buf ++ [0x5c]) ++ [escapedChar c],
              addEscaped := 0 } : ParseState), true) :=
        microStep_mnemonic pre L _ c
          (by simp only [List.length_append, List.length_cons, List.length_nil]; omega)
          rfl
      have e3 := consumeByte_consumed pre L _ _ c f hms3
      have he := e1.trans (e2.trans e3)
      refine ⟨_, he, ?_⟩
      have hbuf3 : (({ st with
            buf := (st.buf ++ [0x5c]) ++ [escapedChar c],
            addEscaped := 0 } : ParseState)).buf =
          padOf pre (decide (st.lines = [])) ++ [0x22] ++ ((bs ++ [c]).map emit).flatten := by
        simp [hbuf, emit, hc]
      have hres := flush_inv pre L hL _ (bs ++ [c]) hbuf3 rfl hw hcnt hlens hlok hfree
        (by simp only [List.length_append, List.length_cons, List.length_nil]; omega)
      refine ⟨hres.1, ?_⟩
      rw [hres.2, allContent_eq pre _ _ hbuf3, hac]
      simp [emit, hc]

/-- Consuming one input byte preserves the byte-boundary invariant and
appends exactly the byte's token to the produced content. -/
theorem consume_spec (pre : List Nat) (L : Nat) (hL : pre.length + 5 ≤ L)
    (st : ParseState) (c : Nat) (hinv : Inv pre L st) :
    ∃ st', consumeByte pre L (byteFuel pre) st c = some st' ∧ Inv pre L st' ∧
      allContent pre st' = allContent pre st ++ emit c := by
  obtain ⟨hw, ha, hlen3, hcnt, hlens, hlok, hshape⟩ := hinv
  rcases hshape with ⟨hbuf0, hpf⟩ | ⟨bs, hbuf, hfree⟩
  · -- the buffer is empty: pad the prefix region and the quote first
    rw [show byteFuel pre = (pre.length + 7) + (pre.length + 1) from by
      unfold byteFuel; omega]
    rw [pad_run pre L hL st c (pre.length + 7) hw hbuf0 hpf]
    have hcc := consume_content pre L hL
      ({ st with
         preFreed := true,
         buf := padOf pre (decide (st.lines = [])) ++ [0x22] }) c [] (pre.length + 7)
      (by omega) (by simp) ha hw
      (by simp only [List.length_append, padOf_length, List.length_cons,
        List.length_nil]; omega)
      hcnt hlens hlok rfl
    obtain ⟨st', h1, h2, h3⟩ := hcc
    refine ⟨st', h1, h2, ?_⟩
    rw [h3]
    congr 1
    unfold allContent
    show (st.lines.map (lineContent pre)).flatten ++
        (padOf pre (decide (st.lines = [])) ++ [0x22]).drop (pre.length + 1) =
        (st.lines.map (lineContent pre)).flatten ++ st.buf.drop (pre.length + 1)
    rw [hbuf0, show (padOf pre (decide (st.lines = [])) ++ [0x22]) =
        padOf pre (decide (st.lines = [])) ++ [0x22] ++ ([] : List Nat) from by simp,
      drop_pad_quote pre _ _ (padOf_length pre _)]
    simp
  · exact consume_content pre L hL st c bs (byteFuel pre)
      (by unfold byteFuel; omega) hbuf ha hw hlen3 hcnt hlens hlok hfree

/-- The inner loop consumes a whole byte list, preserving the invariant and
emitting the concatenation of all the bytes' tokens. -/
theorem runBytes_spec (pre : List Nat) (L : Nat) (hL : pre.length + 5 ≤ L) :
    ∀ (input : List Nat) (st : ParseState), Inv pre L st →
      ∃ st', runBytes pre L st input = some st' ∧ Inv pre L st' ∧
        allContent pre st' = allContent pre st ++ (input.map emit).flatten := by
  intro input
  induction input with
  | nil =>
    intro st hinv
    exact ⟨st, rfl, hinv, by simp⟩
  | cons c rest ih =>
    intro st hinv
    obtain ⟨st1, h1, hinv1, hc1⟩ := consume_spec pre L hL st c hinv
    obtain ⟨st', h2, hinv2, hc2⟩ := ih st1 hinv1
    refine ⟨st', ?run, hinv2, ?content⟩
    case run =>
      simp only [runBytes, h1]
      exact h2
    case content =>
      rw [hc2, hc1]
      simp

lemma inv_init (pre : List Nat) (L : Nat) (hL : pre.length + 5 ≤ L) :
    Inv pre L initState := by
  refine ⟨rfl, rfl, by show 0 + 3 ≤ L; omega, rfl,
    fun l hl => absurd hl (List.not_mem_nil l), by simp [linesOk, initState],
    Or.inl ⟨rfl, by decide⟩⟩

lemma runBytes_append (pre : List Nat) (L : Nat) (a b : List Nat) (st : ParseState) :
    runBytes pre L st (a ++ b) =
      match runBytes pre L st a with
      | some s => runBytes pre L s b
      | none => none := by
  induction a generalizing st with
  | nil => simp [runBytes]
  | cons c rest ih =>
    rw [List.cons_append]
    simp only [runBytes]
    cases h : consumeByte pre L (byteFuel pre) st c with
    | none => rfl
    | some s => exact ih s

/-- Chunked reading is invisible to the algorithm: running the outer loop
over any chunk list computes the same result as the inner loop over the
concatenated bytes. -/
theorem runChunks_eq (pre : List Nat) (L : Nat) (cs : List (List Nat)) (st : ParseState) :
    runChunks pre L st cs = runBytes pre L st cs.flatten := by
  induction cs generalizing st with
  | nil => simp [runChunks, runBytes]
  | cons chunk rest ih =>
    simp only [runChunks, List.flatten_cons]
    rw [runBytes_append]
    cases h : runBytes pre L st chunk with
    | none => rfl
    | some s => exact ih s

lemma chunksGo_flatten (n : Nat) :
    ∀ (fuel : Nat) (l : List Nat), l.length ≤ fuel → (chunksGo n fuel l).flatten = l := by
  intro fuel
  induction fuel with
  | zero =>
    intro l hl
    cases l with
    | nil => rfl
    | cons c r => simp at hl
  | succ f ih =>
    intro l hl
    cases l with
    | nil => rfl
    | cons c r =>
      show (List.take (n + 1) (c :: r) :: chunksGo n f (List.drop (n + 1) (c :: r))).flatten
          = c :: r
      rw [List.flatten_cons, ih _ (by simp only [List.length_drop]; omega)]
      exact List.take_append_drop (n + 1) (c :: r)

lemma chunksOf_flatten (n : Nat) (l : List Nat) : (chunksOf n l).flatten = l :=
  chunksGo_flatten n l.length l le_rfl

/-- The trailing flush leaves an empty buffer, a line count equal to the
number of lines, well-formed bounded lines, and all produced content in the
lines. -/
lemma finalFlush_spec (pre : List Nat) (L : Nat) (hL : pre.length + 5 ≤ L)
    (st : ParseState) (hinv : Inv pre L st) :
    (finalFlush st).buf = [] ∧
    (finalFlush st).linesWritten = (finalFlush st).lines.length ∧
    (∀ l ∈ (finalFlush st).lines, l.length ≤ L) ∧
    linesOk pre (finalFlush st).lines ∧
    ((finalFlush st).lines.map (lineContent pre)).flatten = allContent pre st := by
  obtain ⟨hw, ha, hlen3, hcnt, hlens, hlok, hshape⟩ := hinv
  rcases hshape with ⟨hbuf0, hpf⟩ | ⟨bs, hbuf, hfree⟩
  · rw [finalFlush, if_neg (by rw [hbuf0]; simp)]
    refine ⟨hbuf0, hcnt, hlens, hlok, ?_⟩
    unfold allContent
    rw [hbuf0]
    simp
  · have hpos : 0 < st.buf.length := by
      rw [hbuf]
      simp only [List.length_append, padOf_length, List.length_cons, List.length_nil]
      omega
    rw [finalFlush, if_pos hpos]
    refine ⟨rfl, by simp [hcnt], ?_, ?_, ?_⟩
    · intro l hl
      rcases List.mem_append.mp hl with hl | hl
      · exact hlens l hl
      · rcases List.mem_singleton.mp hl with rfl
        simp only [List.length_append, linePost, List.length_cons, List.length_nil]
        omega
    · exact linesOk_append pre st.lines _ hlok ⟨bs, by rw [hbuf]⟩
    · rw [allContent_eq pre st _ hbuf]
      show ((st.lines ++ [st.buf ++ linePost]).map (lineContent pre)).flatten = _
      rw [List.map_append, List.flatten_append]
      simp only [List.map_cons, List.map_nil, List.flatten_cons, List.flatten_nil,
        List.append_nil]
      rw [hbuf]
      rw [lineContent_mk pre _ _ (padOf_length pre _)]

/-- Full characterization of one `parse` run under the minimum line length
that `main` guarantees: it succeeds, the final buffer is empty, the counter
equals the number of flushed lines, every line respects the bound and is
well formed, and the lines' quoted content is the concatenation of the
emitted tokens of all input bytes. -/
theorem parse_spec (name : List Nat) (L : Nat) (input : List Nat)
    (hL : (declPre name).length + 5 ≤ L) :
    ∃ st, parse name L input = some st ∧
      st.buf = [] ∧
      st.linesWritten = st.lines.length ∧
      (∀ l ∈ st.lines, l.length ≤ L) ∧
      linesOk (declPre name) st.lines ∧
      (st.lines.map (lineContent (declPre name))).flatten = (input.map emit).flatten := by
  obtain ⟨st', h1, hinv', hc'⟩ :=
    runBytes_spec (declPre name) L hL input initState (inv_init _ L hL)
  have hrc : runChunks (declPre name) L initState (chunksOf 119 input) = some st' := by
    rw [runChunks_eq, chunksOf_flatten]
    exact h1
  have hff := finalFlush_spec (declPre name) L hL st' hinv'
  refine ⟨finalFlush st', ?run, hff.1, hff.2.1, hff.2.2.1, hff.2.2.2.1, ?content⟩
  case run =>
    unfold parse
    rw [hrc]
    rfl
  case content =>
    rw [hff.2.2.2.2, hc']
    simp [allContent, initState]

lemma flushPhase_addEscaped (L : Nat) (st : ParseState) :
    (flushPhase L st).addEscaped = st.addEscaped := by
  unfold flushPhase
  split <;> rfl

lemma emitPhase_addEscaped_le (pre : List Nat) (L : Nat) (st : ParseState) (c : Nat)
    (h : st.addEscaped ≤ 2) : ((emitPhase pre L st c).1).addEscaped ≤ 2 := by
  unfold emitPhase
  split_ifs <;> simp <;> omega

lemma microStep_addEscaped_le (pre : List Nat) (L : Nat) (st : ParseState) (c : Nat)
    (h : st.addEscaped ≤ 2) : ((microStep pre L st c).1).addEscaped ≤ 2 := by
  unfold microStep
  rw [flushPhase_addEscaped]
  exact emitPhase_addEscaped_le pre L st c h

lemma microStep_consumed_idle (pre : List Nat) (L : Nat) (st st' : ParseState) (c : Nat)
    (hle : st.addEscaped ≤ 2) (h : microStep pre L st c = (st', true)) :
    st'.addEscaped = 0 := by
  unfold microStep emitPhase at h
  split_ifs at h <;>
    simp only [Prod.mk.injEq, Bool.false_eq_true, and_false, and_true] at h
  all_goals rw [← h, flushPhase_addEscaped]
  show st.addEscaped = 0
  omega

lemma consumeByte_idle (pre : List Nat) (L : Nat) :
    ∀ (fuel : Nat) (st st' : ParseState) (c : Nat), st.addEscaped ≤ 2 →
      consumeByte pre L fuel st c = some st' → st'.addEscaped = 0 := by
  intro fuel
  induction fuel with
  | zero =>
    intro st st' c _ h
    simp [consumeByte] at h
  | succ f ih =>
    intro st st' c hle h
    rw [consumeByte] at h
    rcases hm : microStep pre L st c with ⟨a, b⟩
    rw [hm] at h
    cases b with
    | true =>
      simp only [if_true] at h
      cases h
      exact microStep_consumed_idle pre L st _ c hle hm
    | false =>
      simp only [Bool.false_eq_true, if_false] at h
      have ha : a.addEscaped ≤ 2 := by
        have := microStep_addEscaped_le pre L st c hle
        rw [hm] at this
        exact this
      exact ih a st' c ha h

lemma runBytes_idle (pre : List Nat) (L : Nat) :
    ∀ (bs : List Nat) (st st' : ParseState), st.addEscaped ≤ 2 →
      runBytes pre L st bs = some st' → st'.addEscaped = 0 ∨ st' = st := by
  intro bs
  induction bs with
  | nil =>
    intro st st' _ h
    cases h
    exact Or.inr rfl
  | cons c rest ih =>
    intro st st' hle h
    rw [runBytes] at h
    rcases hc : consumeByte pre L (byteFuel pre) st c with _ | s
    · rw [hc] at h
      exact absurd h (by simp)
    · rw [hc] at h
      have hs := consumeByte_idle pre L (byteFuel pre) st s c hle hc
      rcases ih s st' (by omega) h with h' | h'
      · exact Or.inl h'
      · exact Or.inl (h' ▸ hs)

lemma runChunks_idle (pre : List Nat) (L : Nat) :
    ∀ (chunks : List (List Nat)) (st st' : ParseState), st.addEscaped = 0 →
      runChunks pre L st chunks = some st' → st'.addEscaped = 0 := by
  intro chunks
  induction chunks with
  | nil =>
    intro st st' h0 h
    cases h
    exact h0
  | cons chunk rest ih =>
    intro st st' h0 h
    rw [runChunks] at h
    rcases hc : runBytes pre L st chunk with _ | s
    · rw [hc] at h
      exact absurd h (by simp)
    · rw [hc] at h
      have hs : s.addEscaped = 0 := by
        rcases runBytes_idle pre L chunk st s (by omega) hc with h' | h'
        · exact h'
        · rw [h']
          exact h0
      exact ih s st' hs h

lemma take_pad_quote (pre pad cont tail : List Nat) (hpad : pad.length = pre.length) :
    (pad ++ [0x22] ++ cont ++ tail).take (pre.length + 1) = pad ++ [0x22] := by
  rw [show pad ++ [0x22] ++ cont ++ tail = (pad ++ [0x22]) ++ (cont ++ tail) from by simp,
    show pre.length + 1 = (pad ++ [0x22]).length from by simp [hpad]]
  exact List.take_left ..

/-- C1: Round-trip — for every input byte sequence (all 256 byte values
allowed), concatenating the quoted content of all emitted literal lines and
un-escaping the escape sequences reproduces the original input bytes
exactly.  `L` is the effective line length, which `main` guarantees to be
at least the prefix length plus 5. -/
theorem c1_round_trip (name : List Nat) (L : Nat) (input : List Nat)
    (hL : (declPre name).length + 5 ≤ L) (hbytes : ∀ b ∈ input, b < 256) :
    ∃ st, parse name L input = some st ∧
      unescape ((st.lines.map (lineContent (declPre name))).flatten) = input := by
  obtain ⟨st, h1, _, _, _, _, hcont⟩ := parse_spec name L input hL
  refine ⟨st, h1, ?_⟩
  rw [hcont]
  exact unescape_flatten_emit input

theorem c1_round_trip_witness :
    ((declPre [0x78]).length + 5 ≤ 80 ∧ ∀ b ∈ [65, 10, 66], b < 256) ∧
    ∃ st, parse [0x78] 80 [65, 10, 66] = some st ∧
      unescape ((st.lines.map (lineContent (declPre [0x78]))).flatten) = [65, 10, 66] :=
  ⟨⟨by decide, by decide⟩,
   c1_round_trip [0x78] 80 [65, 10, 66] (by decide) (by decide)⟩

/-- C2: exactly the twelve byte values 0x07, 0x08, 0x1B, 0x0C, 0x0A, 0x0D,
0x09, 0x0B, 0x5C, 0x27, 0x22, 0x3F are emitted as a backslash followed by
the mnemonic a, b, e, f, n, r, t, v, backslash, single-quote, double-quote,
question-mark respectively; every other byte value is copied into the
literal verbatim (the content a parse run produces for a single byte is its
token, an escape pair exactly for the twelve). -/
theorem c2_escape_charset (b : Nat) (hb : b < 256) :
    (escapeRequired b = true ↔ b ∈ escSet) ∧
    (escapedChar 0x07 = 0x61 ∧ escapedChar 0x08 = 0x62 ∧ escapedChar 0x1b = 0x65 ∧
     escapedChar 0x0c = 0x66 ∧ escapedChar 0x0a = 0x6e ∧ escapedChar 0x0d = 0x72 ∧
     escapedChar 0x09 = 0x74 ∧ escapedChar 0x0b = 0x76 ∧ escapedChar 0x5c = 0x5c ∧
     escapedChar 0x27 = 0x27 ∧ escapedChar 0x22 = 0x22 ∧ escapedChar 0x3f = 0x3f) ∧
    (b ∈ escSet → emit b = [0x5c, escapedChar b]) ∧
    (b ∉ escSet → emit b = [b]) ∧
    (∀ (name : List Nat) (L : Nat), (declPre name).length + 5 ≤ L →
      ∃ st, parse name L [b] = some st ∧
        (st.lines.map (lineContent (declPre name))).flatten = emit b) := by
  refine ⟨escapeRequired_iff b, by decide, ?_, ?_, ?_⟩
  · intro hm
    simp [emit, (escapeRequired_iff b).mpr hm]
  · intro hm
    have hf : escapeRequired b = false := by
      cases h : escapeRequired b
      · rfl
      · exact absurd ((escapeRequired_iff b).mp h) hm
    simp [emit, hf]
  · intro name L hL
    obtain ⟨st, h1, _, _, _, _, hcont⟩ := parse_spec name L [b] hL
    refine ⟨st, h1, ?_⟩
    rw [hcont]
    simp

theorem c2_escape_charset_witness :
    (10 : Nat) < 256 ∧
    ((escapeRequired 10 = true ↔ (10 : Nat) ∈ escSet) ∧
     (escapedChar 0x07 = 0x61 ∧ escapedChar 0x08 = 0x62 ∧ escapedChar 0x1b = 0x65 ∧
      escapedChar 0x0c = 0x66 ∧ escapedChar 0x0a = 0x6e ∧ escapedChar 0x0d = 0x72 ∧
      escapedChar 0x09 = 0x74 ∧ escapedChar 0x0b = 0x76 ∧ escapedChar 0x5c = 0x5c ∧
      escapedChar 0x27 = 0x27 ∧ escapedChar 0x22 = 0x22 ∧ escapedChar 0x3f = 0x3f) ∧
     ((10 : Nat) ∈ escSet → emit 10 = [0x5c, escapedChar 10]) ∧
     ((10 : Nat) ∉ escSet → emit 10 = [10]) ∧
     (∀ (name : List Nat) (L : Nat), (declPre name).length + 5 ≤ L →
       ∃ st, parse name L [10] = some st ∧
         (st.lines.map (lineContent (declPre name))).flatten = emit 10)) :=
  ⟨by decide, c2_escape_charset 10 (by decide)⟩

/-- C3: for every input and effective line-length bound L (L at least the
minimum that `main` enforces), the number of physical literal lines written
via the flush path equals the returned `linesWritten` (header and fix-up
lines are not produced by the flush path and are excluded by
construction), and each such line's total length — leading prefix or
padding, quotes, and trailing newline included — never exceeds L. -/
theorem c3_line_accounting (name : List Nat) (L : Nat) (input : List Nat)
    (hL : (declPre name).length + 5 ≤ L) :
    ∃ st, parse name L input = some st ∧
      st.linesWritten = st.lines.length ∧
      ∀ l ∈ st.lines, l.length ≤ L := by
  obtain ⟨st, h1, _, hcnt, hlens, _, _⟩ := parse_spec name L input hL
  exact ⟨st, h1, hcnt, hlens⟩

theorem c3_line_accounting_witness :
    ((declPre [0x78]).length + 5 ≤ 22) ∧
    ∃ st, parse [0x78] 22 [97, 98, 99, 100] = some st ∧
      st.linesWritten = st.lines.length ∧
      ∀ l ∈ st.lines, l.length ≤ 22 :=
  ⟨by decide, c3_line_accounting [0x78] 22 [97, 98, 99, 100] (by decide)⟩

/-- C4: chunk-boundary invariance — partitioning the input into read
chunks of size 1, of size 7, or reading the whole input at once yields the
same final state (hence byte-identical output text and the same
linesWritten) as processing the bytes one after another; `parse` itself,
which reads chunks of 120 bytes, computes that same result.  The escaping
and line-wrap state carries over chunk boundaries unchanged. -/
theorem c4_chunk_invariance (name : List Nat) (L : Nat) (input : List Nat)
    (st : ParseState) :
    runChunks (declPre name) L st (chunksOf 0 input) = runBytes (declPre name) L st input ∧
    runChunks (declPre name) L st (chunksOf 6 input) = runBytes (declPre name) L st input ∧
    runChunks (declPre name) L st [input] = runBytes (declPre name) L st input ∧
    parse name L input = (runBytes (declPre name) L initState input).map finalFlush := by
  refine ⟨?_, ?_, ?_, ?_⟩
  · rw [runChunks_eq, chunksOf_flatten]
  · rw [runChunks_eq, chunksOf_flatten]
  · rw [runChunks_eq]
    simp
  · unfold parse
    rw [runChunks_eq, chunksOf_flatten]

/-- C5 as stated is false on the code: with name `x` and the minimum line
length 22, the four input bytes `abcd` produce two physical lines.  Were
the opening double-quote emitted exactly once per whole run and every
subsequent line made of raw literal content from column 0, the flush-path
output would contain one opening plus one closing quote per line, i.e. 3
double-quote characters for 2 lines; the output actually contains 4, and
the second line begins with 17 columns of space padding followed by its own
opening quote. -/
theorem c5_counterexample :
    (parse [0x78] 22 [97, 98, 99, 100]).map
        (fun st => (st.lines.flatten.count 0x22, st.lines.length,
          (st.lines.getD 1 []).take 18)) =
      some (4, 2, List.replicate 17 0x20 ++ [0x22]) ∧
    ¬ (4 = 1 + 2) := by
  constructor
  · decide
  · decide

/-- C5 amended: the opening double-quote is emitted at the prefix boundary
of every physical line, not once per run — the first line carries the
declaration prefix followed by the opening quote, and every subsequent
physical line begins with prefix-length space padding followed by its own
opening quote; the prefix text itself is never repeated after the first
line. -/
theorem c5_quote_per_line (name : List Nat) (L : Nat) (input : List Nat)
    (hL : (declPre name).length + 5 ≤ L) :
    ∃ st, parse name L input = some st ∧
      (∀ l ∈ st.lines.take 1,
        l.take ((declPre name).length + 1) = declPre name ++ [0x22]) ∧
      (∀ l ∈ st.lines.drop 1,
        l.take ((declPre name).length + 1) =
          List.replicate (declPre name).length 0x20 ++ [0x22]) := by
  obtain ⟨st, h1, _, _, _, hlok, _⟩ := parse_spec name L input hL
  refine ⟨st, h1, ?_, ?_⟩
  · intro l hl
    cases hls : st.lines with
    | nil =>
      rw [hls] at hl
      simp at hl
    | cons l0 rest =>
      rw [hls] at hl
      simp only [List.take_succ_cons, List.take_zero] at hl
      rcases List.mem_singleton.mp hl with rfl
      rw [hls] at hlok
      obtain ⟨⟨bs, hbs⟩, _⟩ := hlok
      rw [hbs]
      exact take_pad_quote (declPre name) (declPre name) _ _ rfl
  · intro l hl
    cases hls : st.lines with
    | nil =>
      rw [hls] at hl
      simp at hl
    | cons l0 rest =>
      rw [hls] at hl
      simp only [List.drop_succ_cons, List.drop_zero] at hl
      rw [hls] at hlok
      obtain ⟨_, hrest⟩ := hlok
      obtain ⟨bs, hbs⟩ := hrest l hl
      rw [hbs]
      exact take_pad_quote (declPre name) _ _ _ (by simp)

theorem c5_quote_per_line_witness :
    ((declPre [0x78]).length + 5 ≤ 22) ∧
    ∃ st, parse [0x78] 22 [97, 98, 99, 100] = some st ∧
      (∀ l ∈ st.lines.take 1,
        l.take ((declPre [0x78]).length + 1) = declPre [0x78] ++ [0x22]) ∧
      (∀ l ∈ st.lines.drop 1,
        l.take ((declPre [0x78]).length + 1) =
          List.replicate (declPre [0x78]).length 0x20 ++ [0x22]) :=
  ⟨by decide, c5_quote_per_line [0x78] 22 [97, 98, 99, 100] (by decide)⟩

/-- C6 is violated by the code: for an empty input file the inner and
final flushes never run, so no declaration, no quotes and no empty-string
statement are ever written and `linesWritten` is 0 (no finalize-only flush
is counted); the fix-up then seeks back over the last two bytes of the
header comment and overwrites them with the end fix-up, so the whole
output file contains no double-quote character at all. -/
theorem c6_empty_input_bug :
    parse [0x78] 80 [] = some initState ∧
    initState.linesWritten = 0 ∧
    initState.lines = [] ∧
    fileText false (headerFor (strBytes "in.txt") (strBytes "arrayify")) initState =
      (headerFor (strBytes "in.txt") (strBytes "arrayify")).dropLast.dropLast ++ endfix ∧
    (fileText false (headerFor (strBytes "in.txt") (strBytes "arrayify"))
      initState).count 0x22 = 0 := by
  refine ⟨by decide, rfl, rfl, by decide, by decide⟩

/-- C7 is violated by the code: when allocation of the transcoder's
internal buffers (the line buffer or the prefix buffer) fails, `parse`
silently skips all work — nothing is written, no diagnostic is issued —
and returns 0, and `main`'s success flag, which the result of `parse`
never influences, still yields exit status 0 instead of a nonzero
failure. -/
theorem c7_alloc_failure_bug :
    (∀ (bare : Bool) (header name : List Nat) (L : Nat) (input : List Nat),
      parseCall false bare header name L input = (0, [])) ∧
    mainRetValue true true true true true = 0 :=
  ⟨fun _ _ _ _ _ => rfl, rfl⟩

/-- C8: minimum line-length enforcement — for a symbol name of length
`name.length`, any requested line-length bound below 16 + name.length + 5
(including every negative value, `req` ranging over the C `int` values) is
raised to exactly 16 + name.length + 5, while requested bounds at or above
the minimum are used unchanged; the output is then wrapped at the
effective bound: every flushed line's length stays within it. -/
theorem c8_minimum_line_length (req : Int) (name : List Nat) (input : List Nat)
    (hreq : req < 2 ^ 31) :
    (req < 16 + name.length + 5 →
      effectiveLineLength req name.length = 16 + name.length + 5) ∧
    ((16 : Int) + name.length + 5 ≤ req →
      effectiveLineLength req name.length = req) ∧
    ∃ st, parse name ((effectiveLineLength req name.length).toNat) input = some st ∧
      ∀ l ∈ st.lines, l.length ≤ (effectiveLineLength req name.length).toNat := by
  have hdp : (declPre name).length = 16 + name.length := by
    have h11 : (strBytes "const char ").length = 11 := by decide
    have h5 : (strBytes "[] = ").length = 5 := by decide
    simp only [declPre, List.length_append, h11, h5]
    omega
  refine ⟨?low, ?high, ?wrap⟩
  case low =>
    intro h
    unfold effectiveLineLength SIZE_T_MOD
    rw [if_pos]
    rcases lt_or_le req 0 with hneg | hpos
    · exact Or.inl hneg
    · right
      rw [Int.emod_eq_of_lt hpos (by omega)]
      omega
  case high =>
    intro h
    unfold effectiveLineLength SIZE_T_MOD
    rw [if_neg]
    push_neg
    refine ⟨by omega, ?_⟩
    rw [Int.emod_eq_of_lt (by omega) (by omega)]
    omega
  case wrap =>
    have hbound : (declPre name).length + 5 ≤ (effectiveLineLength req name.length).toNat := by
      rw [hdp]
      unfold effectiveLineLength SIZE_T_MOD
      split_ifs with h1
      · omega
      · push_neg at h1
        obtain ⟨h1a, h1b⟩ := h1
        omega
    obtain ⟨st, h1, _, _, hlens, _, _⟩ :=
      parse_spec name ((effectiveLineLength req name.length).toNat) input hbound
    exact ⟨st, h1, hlens⟩

theorem c8_minimum_line_length_witness :
    ((10 : Int) < 2 ^ 31) ∧
    (((10 : Int) < 16 + ([0x78] : List Nat).length + 5 →
      effectiveLineLength 10 ([0x78] : List Nat).length = 16 + ([0x78] : List Nat).length + 5) ∧
    ((16 : Int) + ([0x78] : List Nat).length + 5 ≤ 10 →
      effectiveLineLength 10 ([0x78] : List Nat).length = 10) ∧
    ∃ st, parse [0x78] ((effectiveLineLength 10 ([0x78] : List Nat).length).toNat) [65]
        = some st ∧
      ∀ l ∈ st.lines,
        l.length ≤ (effectiveLineLength 10 ([0x78] : List Nat).length).toNat) :=
  ⟨by decide, c8_minimum_line_length 10 [0x78] [65] (by decide)⟩

/-- C9: pending-escape invariant — at every point of the run at most one
pending escape sequence is in flight (the countdown never exceeds 2, the
budget of a single escape), a byte requiring escaping always has its
two-character emission completed before the input cursor moves past it
(every consumed byte leaves the machine with the escape state reset to 0),
and consequently the pending-escape state is idle at every read-chunk
boundary, for every chunking of the input. -/
theorem c9_pending_escape (name : List Nat) (L : Nat) :
    (∀ (st : ParseState) (c : Nat), st.addEscaped ≤ 2 →
      ((microStep (declPre name) L st c).1).addEscaped ≤ 2) ∧
    (∀ (fuel : Nat) (st st' : ParseState) (c : Nat), st.addEscaped ≤ 2 →
      consumeByte (declPre name) L fuel st c = some st' → st'.addEscaped = 0) ∧
    (∀ (chunks : List (List Nat)) (st st' : ParseState), st.addEscaped = 0 →
      runChunks (declPre name) L st chunks = some st' → st'.addEscaped = 0) :=
  ⟨fun st c h => microStep_addEscaped_le (declPre name) L st c h,
   fun fuel st st' c h1 h2 => consumeByte_idle (declPre name) L fuel st st' c h1 h2,
   fun chunks st st' h1 h2 => runChunks_idle (declPre name) L chunks st st' h1 h2⟩

theorem c9_pending_escape_witness :
    (runChunks (declPre [0x78]) 22 initState (chunksOf 0 [65, 92, 66])).map
      ParseState.addEscaped = some 0 := by
  rcases heq : runChunks (declPre [0x78]) 22 initState (chunksOf 0 [65, 92, 66]) with _ | st'
  · exact absurd heq (by decide)
  · have h0 := (c9_pending_escape [0x78] 22).2.2 (chunksOf 0 [65, 92, 66]) initState st'
      rfl heq
    simp [h0]

/-- C10: the two characters of an emitted escape sequence always appear on
the same physical output line — every flushed line's quoted content is a
concatenation of complete emitted tokens (a lone byte or a full
backslash-mnemonic pair), so an escape pair is never split by a line
break; when the pair would not fit, the line is flushed before the
backslash is written. -/
theorem c10_escape_pair_same_line (name : List Nat) (L : Nat) (input : List Nat)
    (hL : (declPre name).length + 5 ≤ L) :
    ∃ st, parse name L input = some st ∧
      ∀ l ∈ st.lines, ∃ bs : List Nat,
        lineContent (declPre name) l = (bs.map emit).flatten := by
  obtain ⟨st, h1, _, _, _, hlok, _⟩ := parse_spec name L input hL
  refine ⟨st, h1, ?_⟩
  intro l hl
  cases hls : st.lines with
  | nil =>
    rw [hls] at hl
    simp at hl
  | cons l0 rest =>
    rw [hls] at hl hlok
    obtain ⟨⟨bs0, hbs0⟩, hrest⟩ := hlok
    rcases List.mem_cons.mp hl with rfl | hl
    · refine ⟨bs0, ?_⟩
      rw [hbs0]
      exact lineContent_mk (declPre name) _ _ rfl
    · obtain ⟨bs1, hbs1⟩ := hrest l hl
      refine ⟨bs1, ?_⟩
      rw [hbs1]
      exact lineContent_mk (declPre name) _ _ (by simp)

theorem c10_escape_pair_same_line_witness :
    ((declPre [0x78]).length + 5 ≤ 22) ∧
    ∃ st, parse [0x78] 22 [97, 10, 98, 92, 99] = some st ∧
      ∀ l ∈ st.lines, ∃ bs : List Nat,
        lineContent (declPre [0x78]) l = (bs.map emit).flatten :=
  ⟨by decide, c10_escape_pair_same_line [0x78] 22 [97, 10, 98, 92, 99] (by decide)⟩

end Arrayify
